import Mathlib

/-!
Shallow embedding of the nullifier-tracking and transaction-input code of
`miden-node` (crates `store`, `block-producer` and `proto`), together with
theorems checking the natural-language specification against it.

Modelling conventions:
* `Felt` (the Miden base-field element) is a `Nat` holding the canonical
  value, which is `< feltP`; `Word` is a record of four such components,
  mirroring `miden_objects::Word` (`[Felt; 4]`).
* The sparse Merkle tree `Smt` is modelled extensionally: `entries` is the
  list of (key, value) pairs with non-empty values, and the Rpo root digest
  is modelled by the list of live entries itself (`SmtRoot`), a
  collision-free stand-in for the hash.  The stored `root` field mirrors the
  root that the real `Smt` caches and that `apply_mutations` overwrites with
  the mutation's declared new root.
* Rust functions that can panic are embedded as `Option`-returning
  functions, `none` standing for the panic.
* Fallible Rust functions returning `Result` become `Except`; methods that
  mutate `&mut self` and return `Result<(), E>` become state-passing
  functions returning the post-state paired with `Option E`.
-/

namespace MidenNode

/-- The Miden base-field modulus `2^64 - 2^32 + 1`. -/
def feltP : Nat := 18446744069414584321

/-- A `Word`: four field elements (`miden_objects::Word`), each component a
canonical value below `feltP`. -/
structure Word where
  w0 : Nat
  w1 : Nat
  w2 : Nat
  w3 : Nat
deriving DecidableEq, Repr

/-- `Smt::EMPTY_VALUE`: the all-zero word, the defined value of an absent
leaf in the sparse Merkle tree. -/
def emptyWord : Word := ⟨0, 0, 0, 0⟩

/-- The root digest of the SMT, modelled by the canonical content of the
tree (its list of live leaves): an injective, collision-free stand-in for
the Rpo hash `RpoDigest`. -/
abbrev SmtRoot := List (Word × Word)

/-- Errors of the external `miden-crypto` SMT (`MerkleError`); only the
variants reachable from the embedded code are modelled. -/
inductive MerkleError
  | DuplicateValuesForIndex
  | ConflictingRoots
deriving DecidableEq, Repr

/-- Does the association list hold an entry for key `k`? -/
def hasKey {β : Type} : List (Word × β) → Word → Bool
  | [], _ => false
  | p :: rest, k => decide (p.1 = k) || hasKey rest k

/-- Are the keys of the association list pairwise distinct?  Mirrors the
duplicate-key tracking that `Smt::with_entries` performs. -/
def keysNodup {β : Type} : List (Word × β) → Bool
  | [] => true
  | p :: rest => !hasKey rest p.1 && keysNodup rest

/-- The live (non-empty-valued) entries of a leaf list: the sparse tree does
not store leaves whose value is `Smt::EMPTY_VALUE`. -/
def liveEntries : List (Word × Word) → List (Word × Word)
  | [] => []
  | p :: rest => if p.2 = emptyWord then liveEntries rest else p :: liveEntries rest

/-- The sparse Merkle tree (`miden_crypto::merkle::Smt`), modelled by its
live leaves together with its cached root. -/
structure Smt where
  entries : List (Word × Word)
  root : SmtRoot
deriving DecidableEq, Repr

/-- `Smt::with_entries`: builds the tree from (key, value) pairs; fails on a
duplicate key (pairs carrying the empty value are tracked for duplicates too
but are not stored). -/
def Smt.withEntries (pairs : List (Word × Word)) : Except MerkleError Smt :=
  if keysNodup pairs then
    Except.ok ⟨liveEntries pairs, liveEntries pairs⟩
  else
    Except.error MerkleError.DuplicateValuesForIndex

/-- First value associated with `k` in the entry list, defaulting to the
empty word. -/
def lookupValue : List (Word × Word) → Word → Word
  | [], _ => emptyWord
  | p :: rest, k => if p.1 = k then p.2 else lookupValue rest k

/-- `Smt::get_value`: the value stored at `k`, or `EMPTY_VALUE` when the key
is absent. -/
def Smt.get_value (t : Smt) (k : Word) : Word :=
  lookupValue t.entries k

/-- `MutationSet`: a computed-but-unapplied change set, carrying the root it
was computed against, the new (key, value) pairs, and the declared new root. -/
structure MutationSet where
  old_root : SmtRoot
  new_pairs : List (Word × Word)
  new_root : SmtRoot
deriving DecidableEq, Repr

/-- Drops every entry with key `k`. -/
def removeKey : List (Word × Word) → Word → List (Word × Word)
  | [], _ => []
  | p :: rest, k => if p.1 = k then removeKey rest k else p :: removeKey rest k

/-- Replaces the value of every entry with key `k` by `v`. -/
def replaceKey : List (Word × Word) → Word → Word → List (Word × Word)
  | [], _, _ => []
  | p :: rest, k, v => if p.1 = k then (k, v) :: replaceKey rest k v else p :: replaceKey rest k v

/-- Setting one leaf in the entry list: the empty value removes the key,
any other value replaces the existing entry or appends a new one. -/
def setLeaf (entries : List (Word × Word)) (k v : Word) : List (Word × Word) :=
  if v = emptyWord then removeKey entries k
  else if hasKey entries k then replaceKey entries k v
  else entries ++ [(k, v)]

/-- Applying a batch of (key, value) pairs to the entry list, first to last. -/
def applyPairs (entries : List (Word × Word)) : List (Word × Word) → List (Word × Word)
  | [] => entries
  | p :: rest => applyPairs (setLeaf entries p.1 p.2) rest

/-- `Smt::compute_mutations`: pure; records the current root as `old_root`,
the requested pairs, and the root the tree would have after applying them. -/
def Smt.compute_mutations (t : Smt) (pairs : List (Word × Word)) : MutationSet :=
  { old_root := t.root, new_pairs := pairs, new_root := applyPairs t.entries pairs }

/-- `Smt::apply_mutations`: guards that the mutation was computed against
the current root before touching any state; on success installs the new
pairs and the mutation's declared new root.  Returns the post-state and the
error, modelling `&mut self` + `Result<(), MerkleError>`. -/
def Smt.apply_mutations (t : Smt) (m : MutationSet) : Smt × Option MerkleError :=
  if m.old_root = t.root then
    (⟨applyPairs t.entries m.new_pairs, m.new_root⟩, none)
  else
    (t, some MerkleError.ConflictingRoots)

/-- Modelled from the spec: `NullifierTreeError` (defined in the store
crate's `errors.rs`, which is not part of the sampled sources) wraps the
underlying primitive's error — "Tracker-internal errors: the authenticated
map rejects a construction or mutation". -/
inductive NullifierTreeError
  | MerkleError (e : MerkleError)
deriving DecidableEq, Repr

/-- `NullifierTree`: newtype wrapper around the SMT
(`crates/store/src/nullifier_tree.rs`). -/
structure NullifierTree where
  smt : Smt
deriving DecidableEq, Repr

namespace NullifierTree

/-- `NullifierTree::block_num_to_leaf_value`: `[Felt::from(block), 0, 0, 0]`.
`BlockNumber` is a `u32`, so the cast into the field is exact. -/
def block_num_to_leaf_value (block : Nat) : Word :=
  ⟨block, 0, 0, 0⟩

/-- `NullifierTree::leaf_value_to_block_num`:
`value[0].as_int().try_into().expect(..)` — takes the first component and
casts it back to a `u32`.  `none` models the `expect` panic on a first
component that does not fit in 32 bits. -/
def leaf_value_to_block_num (value : Word) : Option Nat :=
  if value.w0 < 2 ^ 32 then some value.w0 else none

/-- `NullifierTree::with_entries`: encodes each block number as a leaf value
and defers to `Smt::with_entries`. -/
def with_entries (entries : List (Word × Nat)) : Except NullifierTreeError NullifierTree :=
  match Smt.withEntries (entries.map fun p => (p.1, block_num_to_leaf_value p.2)) with
  | Except.ok inner => Except.ok ⟨inner⟩
  | Except.error e => Except.error (NullifierTreeError.MerkleError e)

/-- `NullifierTree::root`. -/
def root (t : NullifierTree) : SmtRoot :=
  t.smt.root

/-- The per-leaf logic of `NullifierTree::get_block_num`: the all-zero
sentinel decodes to `some none` ("not consumed"); any other value is decoded
by `leaf_value_to_block_num`, whose panic is the outer `none`. -/
def decode_leaf (value : Word) : Option (Option Nat) :=
  if value = emptyWord then some none
  else (leaf_value_to_block_num value).map some

/-- `NullifierTree::get_block_num`: reads the leaf for `n` and decodes it.
`some none` is "not consumed", `some (some h)` is "consumed at height `h`",
and the outer `none` models the decode panic on a corrupted leaf. -/
def get_block_num (t : NullifierTree) (n : Word) : Option (Option Nat) :=
  decode_leaf (t.smt.get_value n)

/-- `NullifierTree::compute_mutations`: encodes the pairs and defers to
`Smt::compute_mutations`. -/
def compute_mutations (t : NullifierTree) (kv_pairs : List (Word × Nat)) : MutationSet :=
  t.smt.compute_mutations (kv_pairs.map fun p => (p.1, block_num_to_leaf_value p.2))

/-- `NullifierTree::apply_mutations`: defers to `Smt::apply_mutations`,
converting the error.  Returns the post-state paired with the error. -/
def apply_mutations (t : NullifierTree) (m : MutationSet) :
    NullifierTree × Option NullifierTreeError :=
  (⟨(t.smt.apply_mutations m).1⟩, (t.smt.apply_mutations m).2.map NullifierTreeError.MerkleError)

end NullifierTree

/-! ### Proto layer (`crates/proto/src/errors.rs` and the wire messages) -/

/-- Wire digest (`generated::digest::Digest`): four raw `u64` components. -/
structure PDigest where
  d0 : Nat
  d1 : Nat
  d2 : Nat
  d3 : Nat
deriving DecidableEq, Repr

/-- `ConversionError` (`crates/proto/src/errors.rs`); the variants reachable
from the embedded code. -/
inductive ConversionError
  | NotAValidFelt
  | TryFromIntError
  | MissingFieldInProtobufRepresentation (entity : String) (field_name : String)
deriving DecidableEq, Repr

/-- `MissingFieldHelper::missing_field`: builds the missing-field error,
naming the protobuf entity type and the field.  The entity string models
`type_name::<T>()` by the message type's name. -/
def missing_field (entity : String) (field_name : String) : ConversionError :=
  ConversionError.MissingFieldInProtobufRepresentation entity field_name

/-- Modelled from the spec: conversion of a wire digest into an `RpoDigest`
(implemented in the proto crate's domain module, not among the sampled
sources).  Spec §7 lists "out-of-range field values" as structural errors
and `errors.rs` provides `NotAValidFelt` ("Value is not in the range
0..MODULUS"): each component must be a canonical field element. -/
def digest_to_word (d : PDigest) : Except ConversionError Word :=
  if d.d0 < feltP ∧ d.d1 < feltP ∧ d.d2 < feltP ∧ d.d3 < feltP then
    Except.ok ⟨d.d0, d.d1, d.d2, d.d3⟩
  else
    Except.error ConversionError.NotAValidFelt

/-- Wire `AccountState`: optional account id (modelled as the raw `u64`)
and optional account hash. -/
structure PAccountState where
  account_id : Option Nat
  account_hash : Option PDigest
deriving DecidableEq, Repr

/-- Modelled from the spec: decoding the wire `AccountState` into the
domain pair (account id, optional account hash); the domain conversion
lives in the proto crate outside the sampled sources.  The id is a
required field; the hash, "absent if the account is unknown to the store"
(§3), stays optional. -/
def account_state_from_proto (st : PAccountState) :
    Except ConversionError (Nat × Option Word) :=
  match st.account_id with
  | none => Except.error (missing_field "AccountState" "account_id")
  | some aid =>
    match st.account_hash with
    | none => Except.ok (aid, none)
    | some d =>
      match digest_to_word d with
      | Except.ok w => Except.ok (aid, some w)
      | Except.error e => Except.error e

/-- Wire `NullifierTransactionInputRecord`: optional nullifier digest and a
`u32` block number, `0` encoding "not consumed". -/
structure NullifierTransactionInputRecord where
  nullifier : Option PDigest
  block_num : Nat
deriving DecidableEq, Repr

/-- Wire `GetTransactionInputsResponse`. -/
structure GetTransactionInputsResponse where
  account_state : Option PAccountState
  nullifiers : List NullifierTransactionInputRecord
  missing_unauthenticated_notes : List PDigest
  block_height : Nat
deriving DecidableEq, Repr

/-! ### `TransactionInputs` (`crates/block-producer/src/store/mod.rs`) -/

/-- `TransactionInputs`: the validated snapshot of store facts for one
transaction.  The `BTreeMap<Nullifier, Option<NonZeroU32>>` is modelled as
an association list with at most one entry per key; heights are plain
`Nat`s with `none` for "not consumed". -/
structure TransactionInputs where
  account_id : Nat
  account_hash : Option Word
  nullifiers : List (Word × Option Nat)
  missing_unauthenticated_notes : List Word
  current_block_height : Nat
deriving DecidableEq, Repr

/-- `NonZeroU32::new`: `0` gives `none`, anything else is kept. -/
def nonZeroU32_new (k : Nat) : Option Nat :=
  if k = 0 then none else some k

/-- Replaces the value of every entry with key `k` by `v` (generic keys
version of `replaceKey`). -/
def replaceEntry {β : Type} : List (Word × β) → Word → β → List (Word × β)
  | [], _, _ => []
  | p :: rest, k, v =>
    if p.1 = k then (k, v) :: replaceEntry rest k v else p :: replaceEntry rest k v

/-- `BTreeMap::insert`, extensionally: replaces the entry for `k` when one
exists, otherwise adds one. -/
def map_insert (m : List (Word × Option Nat)) (k : Word) (v : Option Nat) :
    List (Word × Option Nat) :=
  if hasKey m k then replaceEntry m k v else m ++ [(k, v)]

/-- `BTreeMap::get`, extensionally: the value stored for `k`, if any. -/
def map_lookup (m : List (Word × Option Nat)) (k : Word) : Option (Option Nat) :=
  match m with
  | [] => none
  | p :: rest => if p.1 = k then some p.2 else map_lookup rest k

/-- Decoding one nullifier record of the response: the nullifier digest is
a required field; the block number is decoded by `NonZeroU32::new`, `0`
mapping to `none` "as this is the definition used in protobuf". -/
def decode_nullifier_record (r : NullifierTransactionInputRecord) :
    Except ConversionError (Word × Option Nat) :=
  match r.nullifier with
  | none => Except.error (missing_field "NullifierTransactionInputRecord" "nullifier")
  | some d =>
    match digest_to_word d with
    | Except.ok n => Except.ok (n, nonZeroU32_new r.block_num)
    | Except.error e => Except.error e

/-- The `for` loop of `TryFrom<GetTransactionInputsResponse>`: decodes each
record in wire order and inserts it into the map, later records overwriting
earlier ones with the same nullifier. -/
def collect_nullifiers (acc : List (Word × Option Nat)) :
    List NullifierTransactionInputRecord →
    Except ConversionError (List (Word × Option Nat))
  | [] => Except.ok acc
  | r :: rest =>
    match decode_nullifier_record r with
    | Except.ok p => collect_nullifiers (map_insert acc p.1 p.2) rest
    | Except.error e => Except.error e

/-- The decode results of the nullifier records in wire order (the loop of
`collect_nullifiers` separated from the map building, for specification). -/
def decode_records : List NullifierTransactionInputRecord →
    Except ConversionError (List (Word × Option Nat))
  | [] => Except.ok []
  | r :: rest =>
    match decode_nullifier_record r with
    | Except.ok p =>
      match decode_records rest with
      | Except.ok ps => Except.ok (p :: ps)
      | Except.error e => Except.error e
    | Except.error e => Except.error e

/-- The value of the LAST entry for key `k` in the pair list, if any:
the reference semantics for repeated `BTreeMap::insert`s. -/
def findLastEntry : List (Word × Option Nat) → Word → Option (Option Nat)
  | [], _ => none
  | p :: rest, k =>
    match findLastEntry rest k with
    | some v => some v
    | none => if p.1 = k then some p.2 else none

/-- The `.map(..).collect::<Result<Vec<_>, _>>()` over the wire digests of
`missing_unauthenticated_notes`: first failure aborts, success keeps every
element in order. -/
def collect_digests : List PDigest → Except ConversionError (List Word)
  | [] => Except.ok []
  | d :: rest =>
    match digest_to_word d with
    | Except.ok w =>
      match collect_digests rest with
      | Except.ok ws => Except.ok (w :: ws)
      | Except.error e => Except.error e
    | Except.error e => Except.error e

/-- `TryFrom<GetTransactionInputsResponse> for TransactionInputs`:
`account_state` is required; the nullifier records fill the map; the
missing-note digests are converted verbatim; the block height is copied. -/
def transaction_inputs_try_from (resp : GetTransactionInputsResponse) :
    Except ConversionError TransactionInputs :=
  match resp.account_state with
  | none => Except.error (missing_field "GetTransactionInputsResponse" "account_state")
  | some st =>
    match account_state_from_proto st with
    | Except.error e => Except.error e
    | Except.ok state =>
      match collect_nullifiers [] resp.nullifiers with
      | Except.error e => Except.error e
      | Except.ok nullifiers =>
        match collect_digests resp.missing_unauthenticated_notes with
        | Except.error e => Except.error e
        | Except.ok missing =>
          Except.ok ⟨state.1, state.2, nullifiers, missing, resp.block_height⟩

/-- Modelled from the spec: `TxInputsError` (block-producer `errors.rs`,
not among the sampled sources) — a distinct error kind for `get_tx_inputs`
(§7), with a transport variant, the protocol-contract `MalformedResponse`,
and a wrapper for decoding errors.  `MalformedResponse` carries the two
account ids in place of the formatted message the Rust string holds. -/
inductive TxInputsError
  | GrpcClientError (msg : String)
  | MalformedResponse (got : Nat) (expected : Nat)
  | ConversionFailed (e : ConversionError)
deriving DecidableEq, Repr

/-- The response-processing part of `DefaultStore::get_tx_inputs` (the gRPC
transport is out of scope): decode the response, then accept it only if the
returned account id matches the requested one. -/
def get_tx_inputs (requested_account_id : Nat) (resp : GetTransactionInputsResponse) :
    Except TxInputsError TransactionInputs :=
  match transaction_inputs_try_from resp with
  | Except.error e => Except.error (TxInputsError.ConversionFailed e)
  | Except.ok tx_inputs =>
    if tx_inputs.account_id ≠ requested_account_id then
      Except.error (TxInputsError.MalformedResponse tx_inputs.account_id requested_account_id)
    else
      Except.ok tx_inputs

/-- Modelled from the spec: `NoteAuthenticationInfo`, "external data whose
shape is fixed by the store's response contract but whose construction is
out of scope" (§3) — kept as an opaque payload. -/
structure NoteAuthenticationInfo where
  payload : Nat
deriving DecidableEq, Repr

/-- Wire `GetNoteAuthenticationInfoResponse`: an optional `proofs` field. -/
structure GetNoteAuthenticationInfoResponse where
  proofs : Option NoteAuthenticationInfo
deriving DecidableEq, Repr

/-- Modelled from the spec: `NotePathsError` (block-producer `errors.rs`,
not among the sampled sources) — the distinct error kind of
`get_note_authentication_info` (§7). -/
inductive NotePathsError
  | GrpcClientError (msg : String)
  | ConversionFailed (e : ConversionError)
deriving DecidableEq, Repr

/-- The response-processing part of
`DefaultStore::get_note_authentication_info`: an absent `proofs` field is a
missing-required-field error.  The source builds that error with
`GetTransactionInputsResponse::missing_field("proofs")`, so the entity named
in it is `GetTransactionInputsResponse`, not the containing response type. -/
def get_note_authentication_info (resp : GetNoteAuthenticationInfoResponse) :
    Except NotePathsError NoteAuthenticationInfo :=
  match resp.proofs with
  | none =>
    Except.error (NotePathsError.ConversionFailed
      (missing_field "GetTransactionInputsResponse" "proofs"))
  | some p => Except.ok p

/-! ## Helper lemmas -/

theorem hasKey_of_mem {β : Type} {l : List (Word × β)} {k : Word} {v : β}
    (h : (k, v) ∈ l) : hasKey l k = true := by
  induction l with
  | nil => simp at h
  | cons p rest ih =>
    rcases List.mem_cons.mp h with h1 | h2
    · simp [hasKey, ← h1]
    · simp [hasKey, ih h2]

theorem hasKey_map {β γ : Type} (l : List (Word × β)) (g : Word × β → γ) (k : Word) :
    hasKey (l.map fun p => (p.1, g p)) k = hasKey l k := by
  induction l with
  | nil => rfl
  | cons p rest ih => simp [hasKey, ih]

theorem keysNodup_map {β γ : Type} (l : List (Word × β)) (g : Word × β → γ) :
    keysNodup (l.map fun p => (p.1, g p)) = keysNodup l := by
  induction l with
  | nil => rfl
  | cons p rest ih => simp [keysNodup, ih, hasKey_map]

theorem lookupValue_liveEntries_of_not_hasKey {pairs : List (Word × Word)} {n : Word}
    (h : hasKey pairs n = false) :
    lookupValue (liveEntries pairs) n = emptyWord := by
  induction pairs with
  | nil => rfl
  | cons p rest ih =>
    simp only [hasKey, Bool.or_eq_false_iff, decide_eq_false_iff_not] at h
    by_cases hv : p.2 = emptyWord
    · simpa [liveEntries, hv] using ih h.2
    · simpa [liveEntries, hv, lookupValue, h.1] using ih h.2

theorem lookupValue_liveEntries_of_mem {pairs : List (Word × Word)} {n v : Word}
    (hnd : keysNodup pairs = true) (hmem : (n, v) ∈ pairs) (hv : v ≠ emptyWord) :
    lookupValue (liveEntries pairs) n = v := by
  induction pairs with
  | nil => simp at hmem
  | cons p rest ih =>
    simp only [keysNodup, Bool.and_eq_true, Bool.not_eq_true'] at hnd
    rcases List.mem_cons.mp hmem with h1 | h2
    · have hp2 : p.2 = v := by rw [← h1]
      have hp1 : p.1 = n := by rw [← h1]
      simp [liveEntries, hp2, hv, lookupValue, hp1]
    · have hne : p.1 ≠ n := by
        intro hEq
        rw [hEq] at hnd
        exact absurd (hasKey_of_mem h2) (by simp [hnd.1])
      by_cases hpv : p.2 = emptyWord
      · simpa [liveEntries, hpv] using ih hnd.2 h2
      · simpa [liveEntries, hpv, lookupValue, hne] using ih hnd.2 h2

/-- Inversion of a successful `NullifierTree::with_entries`: the encoded
pairs had pairwise-distinct keys, and the tree holds their live leaves. -/
theorem with_entries_ok_inv {pairs : List (Word × Nat)} {t : NullifierTree}
    (hok : NullifierTree.with_entries pairs = Except.ok t) :
    keysNodup (pairs.map fun p => (p.1, NullifierTree.block_num_to_leaf_value p.2)) = true ∧
    t = ⟨⟨liveEntries (pairs.map fun p => (p.1, NullifierTree.block_num_to_leaf_value p.2)),
          liveEntries (pairs.map fun p => (p.1, NullifierTree.block_num_to_leaf_value p.2))⟩⟩ := by
  unfold NullifierTree.with_entries Smt.withEntries at hok
  by_cases hnd : keysNodup (pairs.map fun p => (p.1, NullifierTree.block_num_to_leaf_value p.2)) = true
  · refine ⟨hnd, ?_⟩
    simp only [hnd, if_true] at hok
    cases hok
    rfl
  · simp only [Bool.not_eq_true] at hnd
    simp [hnd] at hok

/-! ## Claim theorems -/

/-- C1: for every `NullifierTree` and nullifier `n`, `get_block_num n` is
absent exactly when the stored leaf value for `n` is the all-zero sentinel;
for a tree built by `with_entries`, every nullifier whose key is not among
the entries yields absent, and every entry `(n, h)` with `h ≠ 0` (and `h`
a valid `u32`) yields `get_block_num n = h`. -/
theorem c1_get_block_num_with_entries (pairs : List (Word × Nat)) (t : NullifierTree)
    (hok : NullifierTree.with_entries pairs = Except.ok t) :
    (∀ (u : NullifierTree) (n : Word),
        u.get_block_num n = some none ↔ u.smt.get_value n = emptyWord) ∧
    (∀ n : Word, hasKey pairs n = false → t.get_block_num n = some none) ∧
    (∀ (n : Word) (h : Nat), (n, h) ∈ pairs → h ≠ 0 → h < 2 ^ 32 →
        t.get_block_num n = some (some h)) := by
  obtain ⟨hnd, ht⟩ := with_entries_ok_inv hok
  refine ⟨?_, ?_, ?_⟩
  · intro u n
    unfold NullifierTree.get_block_num NullifierTree.decode_leaf
    by_cases hv : u.smt.get_value n = emptyWord
    · simp [hv]
    · simp only [hv, if_false, iff_false]
      unfold NullifierTree.leaf_value_to_block_num
      by_cases hw : (u.smt.get_value n).w0 < 2 ^ 32 <;> simp [hw]
  · intro n hn
    have hn' : hasKey (pairs.map fun p => (p.1, NullifierTree.block_num_to_leaf_value p.2)) n
        = false := by
      rw [hasKey_map]; exact hn
    have hval : t.smt.get_value n = emptyWord := by
      rw [ht]
      exact lookupValue_liveEntries_of_not_hasKey hn'
    simp [NullifierTree.get_block_num, NullifierTree.decode_leaf, hval]
  · intro n h hmem hz hlt
    have hmem' : (n, NullifierTree.block_num_to_leaf_value h)
        ∈ pairs.map fun p => (p.1, NullifierTree.block_num_to_leaf_value p.2) :=
      List.mem_map_of_mem _ hmem
    have hvne : NullifierTree.block_num_to_leaf_value h ≠ emptyWord := by
      simp [NullifierTree.block_num_to_leaf_value, emptyWord, hz]
    have hval : t.smt.get_value n = NullifierTree.block_num_to_leaf_value h := by
      rw [ht]
      exact lookupValue_liveEntries_of_mem hnd hmem' hvne
    have hlt' : h < 4294967296 := by omega
    have hvne' : (⟨h, 0, 0, 0⟩ : Word) ≠ emptyWord := hvne
    simp [NullifierTree.get_block_num, NullifierTree.decode_leaf, hval, hvne',
      NullifierTree.leaf_value_to_block_num, NullifierTree.block_num_to_leaf_value, hlt']

/-- Witness for C1 at a concretely built tree. -/
theorem c1_get_block_num_with_entries_witness :
    NullifierTree.get_block_num
        ⟨⟨[(⟨1, 1, 1, 1⟩, ⟨5, 0, 0, 0⟩), (⟨2, 2, 2, 2⟩, ⟨9, 0, 0, 0⟩)],
          [(⟨1, 1, 1, 1⟩, ⟨5, 0, 0, 0⟩), (⟨2, 2, 2, 2⟩, ⟨9, 0, 0, 0⟩)]⟩⟩
        ⟨1, 1, 1, 1⟩ = some (some 5) ∧
    NullifierTree.get_block_num
        ⟨⟨[(⟨1, 1, 1, 1⟩, ⟨5, 0, 0, 0⟩), (⟨2, 2, 2, 2⟩, ⟨9, 0, 0, 0⟩)],
          [(⟨1, 1, 1, 1⟩, ⟨5, 0, 0, 0⟩), (⟨2, 2, 2, 2⟩, ⟨9, 0, 0, 0⟩)]⟩⟩
        ⟨3, 3, 3, 3⟩ = some none := by
  have h := c1_get_block_num_with_entries
    [(⟨1, 1, 1, 1⟩, 5), (⟨2, 2, 2, 2⟩, 9)]
    ⟨⟨[(⟨1, 1, 1, 1⟩, ⟨5, 0, 0, 0⟩), (⟨2, 2, 2, 2⟩, ⟨9, 0, 0, 0⟩)],
      [(⟨1, 1, 1, 1⟩, ⟨5, 0, 0, 0⟩), (⟨2, 2, 2, 2⟩, ⟨9, 0, 0, 0⟩)]⟩⟩
    rfl
  exact ⟨h.2.2 ⟨1, 1, 1, 1⟩ 5 (by decide) (by decide) (by decide),
    h.2.1 ⟨3, 3, 3, 3⟩ (by decide)⟩

/-- C2: for every valid (32-bit) block number `h`, decoding the leaf value
produced by encoding `h` yields exactly `h`; the all-zero sentinel decodes
to absent. -/
theorem c2_leaf_value_roundtrip (h : Nat) (hlt : h < 2 ^ 32) :
    NullifierTree.leaf_value_to_block_num (NullifierTree.block_num_to_leaf_value h) = some h ∧
    NullifierTree.decode_leaf emptyWord = some none := by
  have hlt' : h < 4294967296 := by omega
  constructor
  · simp [NullifierTree.leaf_value_to_block_num, NullifierTree.block_num_to_leaf_value, hlt']
  · simp [NullifierTree.decode_leaf]

/-- Witness for C2 at `h = 123`. -/
theorem c2_leaf_value_roundtrip_witness :
    NullifierTree.leaf_value_to_block_num (NullifierTree.block_num_to_leaf_value 123)
      = some 123 ∧
    NullifierTree.decode_leaf emptyWord = some none :=
  c2_leaf_value_roundtrip 123 (by decide)

/-- C3: `apply_mutations` leaves the tree (root and every `get_block_num`
result) unchanged whenever it returns an error — in particular it errors
whenever the mutation's recorded old root is no longer the tree's current
root — and a successful application advances the root to the mutation's
declared new root; `compute_mutations` records the current root. -/
theorem c3_apply_mutations_atomic (t : NullifierTree) (m : MutationSet)
    (ps : List (Word × Nat)) :
    ((t.apply_mutations m).2.isSome = true →
        (t.apply_mutations m).1 = t ∧
        (t.apply_mutations m).1.root = t.root ∧
        ∀ n : Word, (t.apply_mutations m).1.get_block_num n = t.get_block_num n) ∧
    ((t.apply_mutations m).2 = none → (t.apply_mutations m).1.root = m.new_root) ∧
    (m.old_root ≠ t.root →
        (t.apply_mutations m).2
          = some (NullifierTreeError.MerkleError MerkleError.ConflictingRoots)) ∧
    (t.compute_mutations ps).old_root = t.root := by
  by_cases hc : m.old_root = t.smt.root
  · have he : t.apply_mutations m
        = (⟨⟨applyPairs t.smt.entries m.new_pairs, m.new_root⟩⟩, none) := by
      unfold NullifierTree.apply_mutations Smt.apply_mutations
      rw [if_pos hc]
      rfl
    refine ⟨?_, ?_, ?_, rfl⟩
    · intro hsome
      rw [he] at hsome
      simp at hsome
    · intro _
      rw [he]
      rfl
    · intro hne
      exact absurd hc hne
  · have he : t.apply_mutations m
        = (t, some (NullifierTreeError.MerkleError MerkleError.ConflictingRoots)) := by
      unfold NullifierTree.apply_mutations Smt.apply_mutations
      rw [if_neg hc]
      rfl
    refine ⟨?_, ?_, ?_, rfl⟩
    · intro _
      rw [he]
      exact ⟨rfl, rfl, fun _ => rfl⟩
    · intro hnone
      rw [he] at hnone
      simp at hnone
    · intro _
      rw [he]

/-- Witness for C3: applying a stale mutation to the empty tree fails and
leaves the tree unchanged. -/
theorem c3_apply_mutations_atomic_witness :
    (NullifierTree.apply_mutations ⟨⟨[], []⟩⟩
        ⟨[(⟨1, 1, 1, 1⟩, ⟨5, 0, 0, 0⟩)], [], []⟩).2
      = some (NullifierTreeError.MerkleError MerkleError.ConflictingRoots) ∧
    (NullifierTree.apply_mutations ⟨⟨[], []⟩⟩
        ⟨[(⟨1, 1, 1, 1⟩, ⟨5, 0, 0, 0⟩)], [], []⟩).1 = ⟨⟨[], []⟩⟩ := by
  have h := c3_apply_mutations_atomic ⟨⟨[], []⟩⟩
    ⟨[(⟨1, 1, 1, 1⟩, ⟨5, 0, 0, 0⟩)], [], []⟩ []
  have herr := h.2.2.1 (by decide)
  refine ⟨herr, (h.1 ?_).1⟩
  rw [herr]
  rfl

/-- C6 counterexample: passing the pair `(n, 0)` to `with_entries` is NOT
rejected — construction succeeds (yielding a tree without the key), and
`compute_mutations` silently encodes the pair as the empty value. -/
theorem c6_zero_height_counterexample :
    NullifierTree.with_entries [(⟨1, 2, 3, 4⟩, 0)] = Except.ok ⟨⟨[], []⟩⟩ ∧
    NullifierTree.compute_mutations ⟨⟨[], []⟩⟩ [(⟨1, 2, 3, 4⟩, 0)]
      = ⟨[], [(⟨1, 2, 3, 4⟩, emptyWord)], []⟩ :=
  ⟨rfl, rfl⟩

/-- C6 amended: a pair `(n, 0)` is silently accepted, not rejected: height 0
encodes to the all-zero sentinel, so `with_entries` succeeds and leaves `n`
absent (`get_block_num n` is absent), and `compute_mutations` turns the pair
into a leaf removal (the empty value); height 0 is never stored as a
consumed height. -/
theorem c6_zero_height_amended (n : Word) (t : NullifierTree) :
    NullifierTree.block_num_to_leaf_value 0 = emptyWord ∧
    NullifierTree.with_entries [(n, 0)] = Except.ok ⟨⟨[], []⟩⟩ ∧
    NullifierTree.get_block_num ⟨⟨[], []⟩⟩ n = some none ∧
    (t.compute_mutations [(n, 0)]).new_pairs = [(n, emptyWord)] :=
  ⟨rfl, rfl, rfl, rfl⟩

/-- C7: decoding a leaf whose first component does not fit the unsigned
32-bit range is the fatal condition (the `expect` panic, embedded as
`none`), not a recoverable error and not a clamped or wrapped value; a
fitting component is returned exactly. -/
theorem c7_decode_out_of_range_is_fatal (v : Word) :
    (2 ^ 32 ≤ v.w0 → NullifierTree.leaf_value_to_block_num v = none) ∧
    (v.w0 < 2 ^ 32 → NullifierTree.leaf_value_to_block_num v = some v.w0) ∧
    (v ≠ emptyWord → 2 ^ 32 ≤ v.w0 → NullifierTree.decode_leaf v = none) := by
  refine ⟨?_, ?_, ?_⟩
  · intro hge
    have h1 : ¬v.w0 < 4294967296 := by omega
    simp [NullifierTree.leaf_value_to_block_num, h1]
  · intro hlt
    have h1 : v.w0 < 4294967296 := by omega
    simp [NullifierTree.leaf_value_to_block_num, h1]
  · intro hne hge
    have h1 : ¬v.w0 < 4294967296 := by omega
    simp [NullifierTree.decode_leaf, hne, NullifierTree.leaf_value_to_block_num, h1]

/-- Witness for C7 at the first value outside the 32-bit range and at a
fitting value. -/
theorem c7_decode_out_of_range_is_fatal_witness :
    NullifierTree.leaf_value_to_block_num ⟨4294967296, 0, 0, 0⟩ = none ∧
    NullifierTree.leaf_value_to_block_num ⟨7, 0, 0, 0⟩ = some 7 :=
  ⟨(c7_decode_out_of_range_is_fatal ⟨4294967296, 0, 0, 0⟩).1 (by decide),
    (c7_decode_out_of_range_is_fatal ⟨7, 0, 0, 0⟩).2.1 (by decide)⟩

/-- C8: a missing `account_state` and a missing record nullifier fail with
the missing-required-field error naming the containing protobuf entity and
the field; a missing `proofs` field is likewise a missing-required-field
protocol error — but the source builds it with
`GetTransactionInputsResponse::missing_field`, so the named entity is
`GetTransactionInputsResponse`, not the containing
`GetNoteAuthenticationInfoResponse`. -/
theorem c8_missing_required_fields :
    transaction_inputs_try_from ⟨none, [], [], 0⟩
      = Except.error (missing_field "GetTransactionInputsResponse" "account_state") ∧
    transaction_inputs_try_from ⟨some ⟨some 7, none⟩, [⟨none, 5⟩], [], 0⟩
      = Except.error (missing_field "NullifierTransactionInputRecord" "nullifier") ∧
    get_note_authentication_info ⟨none⟩
      = Except.error (NotePathsError.ConversionFailed
          (missing_field "GetTransactionInputsResponse" "proofs")) :=
  ⟨rfl, rfl, rfl⟩

/-- C4: when the decoded response embeds an account id different from the
requested one, `get_tx_inputs` fails with the protocol-contract error
`MalformedResponse` and returns no `TransactionInputs` value. -/
theorem c4_account_id_mismatch (req : Nat) (resp : GetTransactionInputsResponse)
    (ti : TransactionInputs)
    (hconv : transaction_inputs_try_from resp = Except.ok ti)
    (hne : ti.account_id ≠ req) :
    get_tx_inputs req resp
      = Except.error (TxInputsError.MalformedResponse ti.account_id req) ∧
    ∀ ti2 : TransactionInputs, get_tx_inputs req resp ≠ Except.ok ti2 := by
  have h1 : get_tx_inputs req resp
      = Except.error (TxInputsError.MalformedResponse ti.account_id req) := by
    unfold get_tx_inputs
    rw [hconv]
    exact if_pos hne
  refine ⟨h1, fun ti2 hok => ?_⟩
  rw [h1] at hok
  exact Except.noConfusion hok

/-- Witness for C4: the store answers for account 7 while account 8 was
requested. -/
theorem c4_account_id_mismatch_witness :
    get_tx_inputs 8 ⟨some ⟨some 7, none⟩, [], [], 0⟩
      = Except.error (TxInputsError.MalformedResponse 7 8) :=
  (c4_account_id_mismatch 8 ⟨some ⟨some 7, none⟩, [], [], 0⟩
    ⟨7, none, [], [], 0⟩ rfl (by decide)).1

/-- Forward evaluation of `transaction_inputs_try_from` from the results of
its stages. -/
theorem transaction_inputs_try_from_eq (resp : GetTransactionInputsResponse)
    (st : PAccountState) (aid : Nat) (ah : Option Word)
    (ns : List (Word × Option Nat)) (ms : List Word)
    (hst : resp.account_state = some st)
    (hsp : account_state_from_proto st = Except.ok (aid, ah))
    (hcn : collect_nullifiers [] resp.nullifiers = Except.ok ns)
    (hcd : collect_digests resp.missing_unauthenticated_notes = Except.ok ms) :
    transaction_inputs_try_from resp = Except.ok ⟨aid, ah, ns, ms, resp.block_height⟩ := by
  simp only [transaction_inputs_try_from, hst, hsp, hcn, hcd]

/-- C5: a wire nullifier record with `block_num = 0` decodes to an absent
consumption height in `TransactionInputs`, and any non-zero `block_num`
decodes to that present height (`NonZeroU32::new` is the decoder). -/
theorem c5_zero_block_num_is_absent (st : PAccountState) (aid : Nat) (ah : Option Word)
    (d : PDigest) (n : Word) (b hh : Nat)
    (hst : account_state_from_proto st = Except.ok (aid, ah))
    (hd : digest_to_word d = Except.ok n) :
    transaction_inputs_try_from ⟨some st, [⟨some d, b⟩], [], hh⟩
      = Except.ok ⟨aid, ah, [(n, nonZeroU32_new b)], [], hh⟩ ∧
    (nonZeroU32_new b = none ↔ b = 0) ∧
    (b ≠ 0 → nonZeroU32_new b = some b) := by
  refine ⟨?_, ?_, ?_⟩
  · have hcn : collect_nullifiers [] [⟨some d, b⟩]
        = Except.ok [(n, nonZeroU32_new b)] := by
      simp only [collect_nullifiers, decode_nullifier_record, hd]
      rfl
    exact transaction_inputs_try_from_eq ⟨some st, [⟨some d, b⟩], [], hh⟩
      st aid ah [(n, nonZeroU32_new b)] [] rfl hst hcn rfl
  · unfold nonZeroU32_new
    by_cases hb : b = 0 <;> simp [hb]
  · intro hb
    simp [nonZeroU32_new, hb]

/-- Witness for C5 at `block_num = 0`. -/
theorem c5_zero_block_num_is_absent_witness :
    transaction_inputs_try_from
        ⟨some ⟨some 7, none⟩, [⟨some ⟨1, 2, 3, 4⟩, 0⟩], [], 9⟩
      = Except.ok ⟨7, none, [(⟨1, 2, 3, 4⟩, none)], [], 9⟩ ∧
    nonZeroU32_new 0 = none := by
  have h := c5_zero_block_num_is_absent ⟨some 7, none⟩ 7 none
    ⟨1, 2, 3, 4⟩ ⟨1, 2, 3, 4⟩ 0 9 rfl rfl
  exact ⟨h.1, h.2.1.mpr rfl⟩

/-- A successful digest collection keeps the length and converts each
position in place. -/
theorem collect_digests_ok {ds : List PDigest} {ws : List Word}
    (h : collect_digests ds = Except.ok ws) :
    ws.length = ds.length ∧
    ∀ (i : Nat) (h1 : i < ds.length) (h2 : i < ws.length),
      digest_to_word (ds.get ⟨i, h1⟩) = Except.ok (ws.get ⟨i, h2⟩) := by
  induction ds generalizing ws with
  | nil =>
    simp only [collect_digests] at h
    cases h
    exact ⟨rfl, fun i h1 h2 => absurd h1 (by simp)⟩
  | cons dd rest ih =>
    simp only [collect_digests] at h
    cases hd : digest_to_word dd with
    | error e =>
      simp only [hd] at h
      exact Except.noConfusion h
    | ok w =>
      simp only [hd] at h
      cases hr : collect_digests rest with
      | error e =>
        simp only [hr] at h
        exact Except.noConfusion h
      | ok tail =>
        simp only [hr] at h
        cases h
        obtain ⟨hlen, hpt⟩ := ih hr
        refine ⟨by simp [hlen], ?_⟩
        intro i h1 h2
        cases i with
        | zero => exact hd
        | succ j =>
          exact hpt j (Nat.lt_of_succ_lt_succ h1) (Nat.lt_of_succ_lt_succ h2)

/-- Inversion of a successful `TryFrom<GetTransactionInputsResponse>`. -/
theorem transaction_inputs_try_from_ok_inv {resp : GetTransactionInputsResponse}
    {ti : TransactionInputs}
    (hok : transaction_inputs_try_from resp = Except.ok ti) :
    ∃ st, resp.account_state = some st ∧
      account_state_from_proto st = Except.ok (ti.account_id, ti.account_hash) ∧
      collect_nullifiers [] resp.nullifiers = Except.ok ti.nullifiers ∧
      collect_digests resp.missing_unauthenticated_notes
        = Except.ok ti.missing_unauthenticated_notes ∧
      ti.current_block_height = resp.block_height := by
  simp only [transaction_inputs_try_from] at hok
  cases hst : resp.account_state with
  | none =>
    simp only [hst] at hok
    exact Except.noConfusion hok
  | some st =>
    simp only [hst] at hok
    cases hsp : account_state_from_proto st with
    | error e =>
      simp only [hsp] at hok
      exact Except.noConfusion hok
    | ok state =>
      simp only [hsp] at hok
      cases hcn : collect_nullifiers [] resp.nullifiers with
      | error e =>
        simp only [hcn] at hok
        exact Except.noConfusion hok
      | ok ns =>
        simp only [hcn] at hok
        cases hcd : collect_digests resp.missing_unauthenticated_notes with
        | error e =>
          simp only [hcd] at hok
          exact Except.noConfusion hok
        | ok ms =>
          simp only [hcd] at hok
          cases hok
          exact ⟨st, rfl, hsp, rfl, rfl, rfl⟩

/-- C9: the wire `missing_unauthenticated_notes` list appears verbatim in
`TransactionInputs`: same length, each position converted in place — no
reordering and no deduplication. -/
theorem c9_missing_notes_verbatim (resp : GetTransactionInputsResponse)
    (ti : TransactionInputs)
    (hok : transaction_inputs_try_from resp = Except.ok ti) :
    collect_digests resp.missing_unauthenticated_notes
      = Except.ok ti.missing_unauthenticated_notes ∧
    ti.missing_unauthenticated_notes.length
      = resp.missing_unauthenticated_notes.length ∧
    ∀ (i : Nat) (h1 : i < resp.missing_unauthenticated_notes.length)
      (h2 : i < ti.missing_unauthenticated_notes.length),
      digest_to_word (resp.missing_unauthenticated_notes.get ⟨i, h1⟩)
        = Except.ok (ti.missing_unauthenticated_notes.get ⟨i, h2⟩) := by
  obtain ⟨st, hst, hsp, hcn, hcd, hbh⟩ := transaction_inputs_try_from_ok_inv hok
  obtain ⟨hlen, hpt⟩ := collect_digests_ok hcd
  exact ⟨hcd, hlen, hpt⟩

/-- Witness for C9, with a repeated digest kept twice in order. -/
theorem c9_missing_notes_verbatim_witness :
    collect_digests [⟨1, 2, 3, 4⟩, ⟨1, 2, 3, 4⟩]
      = Except.ok [⟨1, 2, 3, 4⟩, ⟨1, 2, 3, 4⟩] :=
  (c9_missing_notes_verbatim
    ⟨some ⟨some 7, none⟩, [], [⟨1, 2, 3, 4⟩, ⟨1, 2, 3, 4⟩], 0⟩
    ⟨7, none, [], [⟨1, 2, 3, 4⟩, ⟨1, 2, 3, 4⟩], 0⟩ rfl).1

theorem map_lookup_replaceEntry_ne (m : List (Word × Option Nat)) (k : Word)
    (v : Option Nat) (k' : Word) (hne : k' ≠ k) :
    map_lookup (replaceEntry m k v) k' = map_lookup m k' := by
  induction m with
  | nil => rfl
  | cons p rest ih =>
    by_cases hp : p.1 = k
    · have hk : k ≠ k' := fun h => hne h.symm
      have hp' : p.1 ≠ k' := by rw [hp]; exact hk
      simp only [replaceEntry, if_pos hp, map_lookup, if_neg hk, if_neg hp', ih]
    · simp only [replaceEntry, if_neg hp, map_lookup]
      by_cases hq : p.1 = k' <;> simp [hq, ih]

theorem map_lookup_replaceEntry_eq (m : List (Word × Option Nat)) (k : Word)
    (v : Option Nat) (hk : hasKey m k = true) :
    map_lookup (replaceEntry m k v) k = some v := by
  induction m with
  | nil => simp [hasKey] at hk
  | cons p rest ih =>
    by_cases hp : p.1 = k
    · simp [replaceEntry, if_pos hp, map_lookup]
    · simp only [hasKey, Bool.or_eq_true, decide_eq_true_eq] at hk
      rcases hk with h | h
      · exact absurd h hp
      · simp only [replaceEntry, if_neg hp, map_lookup, if_neg hp, ih h]

theorem map_lookup_append_single (m : List (Word × Option Nat)) (k : Word)
    (v : Option Nat) (k' : Word) (hnk : hasKey m k = false) :
    map_lookup (m ++ [(k, v)]) k' = if k' = k then some v else map_lookup m k' := by
  induction m with
  | nil =>
    by_cases h : k' = k
    · simp [map_lookup, h]
    · have h' : k ≠ k' := fun hh => h hh.symm
      simp [map_lookup, h, h']
  | cons p rest ih =>
    simp only [hasKey, Bool.or_eq_false_iff, decide_eq_false_iff_not] at hnk
    simp only [List.cons_append, map_lookup]
    by_cases hq : p.1 = k'
    · have h' : ¬k' = k := fun hh => hnk.1 (by rw [hq, hh])
      simp [hq, h']
    · simp [hq, ih hnk.2]

/-- Lookup after `BTreeMap::insert`: the inserted key now maps to the new
value; every other key is untouched. -/
theorem map_lookup_insert (m : List (Word × Option Nat)) (k : Word)
    (v : Option Nat) (k' : Word) :
    map_lookup (map_insert m k v) k' = if k' = k then some v else map_lookup m k' := by
  unfold map_insert
  by_cases hk : hasKey m k = true
  · rw [if_pos hk]
    by_cases h : k' = k
    · rw [if_pos h, h]
      exact map_lookup_replaceEntry_eq m k v hk
    · rw [if_neg h]
      exact map_lookup_replaceEntry_ne m k v k' h
  · have hkf : hasKey m k = false := by simpa using hk
    rw [if_neg (by simp [hkf])]
    exact map_lookup_append_single m k v k' hkf

theorem hasKey_replaceEntry (m : List (Word × Option Nat)) (k : Word)
    (v : Option Nat) (j : Word) :
    hasKey (replaceEntry m k v) j = hasKey m j := by
  induction m with
  | nil => rfl
  | cons p rest ih =>
    by_cases hp : p.1 = k
    · simp only [replaceEntry, if_pos hp, hasKey, ih, hp]
    · simp only [replaceEntry, if_neg hp, hasKey, ih]

theorem keysNodup_replaceEntry (m : List (Word × Option Nat)) (k : Word)
    (v : Option Nat) :
    keysNodup (replaceEntry m k v) = keysNodup m := by
  induction m with
  | nil => rfl
  | cons p rest ih =>
    by_cases hp : p.1 = k
    · simp only [replaceEntry, if_pos hp, keysNodup, hasKey_replaceEntry, ih, hp]
    · simp only [replaceEntry, if_neg hp, keysNodup, hasKey_replaceEntry, ih]

theorem hasKey_append (m1 m2 : List (Word × Option Nat)) (j : Word) :
    hasKey (m1 ++ m2) j = (hasKey m1 j || hasKey m2 j) := by
  induction m1 with
  | nil => simp [hasKey]
  | cons p rest ih => simp [hasKey, ih, Bool.or_assoc]

theorem keysNodup_append_single (m : List (Word × Option Nat)) (k : Word)
    (v : Option Nat) (hk : hasKey m k = false) (hnd : keysNodup m = true) :
    keysNodup (m ++ [(k, v)]) = true := by
  induction m with
  | nil => simp [keysNodup, hasKey]
  | cons p rest ih =>
    simp only [hasKey, Bool.or_eq_false_iff, decide_eq_false_iff_not] at hk
    simp only [keysNodup, Bool.and_eq_true, Bool.not_eq_true'] at hnd
    simp only [List.cons_append, keysNodup, Bool.and_eq_true, Bool.not_eq_true',
      hasKey_append, Bool.or_eq_false_iff]
    refine ⟨?_, ih hk.2 hnd.2⟩
    have hr : rest.append [(k, v)] = rest ++ [(k, v)] := rfl
    rw [hr, hasKey_append]
    have hkp : ¬(k = p.1) := fun h => hk.1 h.symm
    simp [hasKey, hnd.1, hkp]

/-- `BTreeMap::insert` preserves the one-entry-per-key invariant. -/
theorem keysNodup_insert (m : List (Word × Option Nat)) (k : Word)
    (v : Option Nat) (hnd : keysNodup m = true) :
    keysNodup (map_insert m k v) = true := by
  unfold map_insert
  by_cases hk : hasKey m k = true
  · rw [if_pos hk, keysNodup_replaceEntry]
    exact hnd
  · have hkf : hasKey m k = false := by simpa using hk
    rw [if_neg (by simp [hkf])]
    exact keysNodup_append_single m k v hkf hnd

/-- Folding inserts over decoded records: the final lookup is the LAST
record for the key, falling back to the start map. -/
theorem foldl_insert_lookup (ps : List (Word × Option Nat)) :
    ∀ (m : List (Word × Option Nat)) (k : Word),
    map_lookup (ps.foldl (fun acc p => map_insert acc p.1 p.2) m) k
      = match findLastEntry ps k with
        | some v => some v
        | none => map_lookup m k := by
  induction ps with
  | nil =>
    intro m k
    rfl
  | cons p rest ih =>
    intro m k
    simp only [List.foldl_cons, findLastEntry]
    rw [ih]
    cases hf : findLastEntry rest k with
    | some v => rfl
    | none =>
      rw [map_lookup_insert]
      by_cases hp : p.1 = k
      · simp [hp]
      · have hp' : k ≠ p.1 := fun h => hp h.symm
        simp [hp, hp']

theorem keysNodup_foldl_insert (ps : List (Word × Option Nat)) :
    ∀ m, keysNodup m = true →
    keysNodup (ps.foldl (fun acc p => map_insert acc p.1 p.2) m) = true := by
  induction ps with
  | nil =>
    intro m h
    exact h
  | cons p rest ih =>
    intro m h
    simp only [List.foldl_cons]
    exact ih _ (keysNodup_insert m p.1 p.2 h)

/-- The record loop is the fold of map inserts over the decoded records. -/
theorem collect_nullifiers_eq_foldl (rs : List NullifierTransactionInputRecord) :
    ∀ (ps acc : List (Word × Option Nat)),
    decode_records rs = Except.ok ps →
    collect_nullifiers acc rs
      = Except.ok (ps.foldl (fun m p => map_insert m p.1 p.2) acc) := by
  induction rs with
  | nil =>
    intro ps acc h
    simp only [decode_records] at h
    cases h
    rfl
  | cons r rest ih =>
    intro ps acc h
    simp only [decode_records] at h
    cases hd : decode_nullifier_record r with
    | error e =>
      simp only [hd] at h
      exact Except.noConfusion h
    | ok p =>
      simp only [hd] at h
      cases hr : decode_records rest with
      | error e =>
        simp only [hr] at h
        exact Except.noConfusion h
      | ok tail =>
        simp only [hr] at h
        cases h
        simp only [collect_nullifiers, hd, List.foldl_cons]
        exact ih tail (map_insert acc p.1 p.2) hr

/-- C10: a response whose records repeat a nullifier still converts
successfully; the resulting map keeps one entry per nullifier, and lookup
gives the height of the LAST wire record for that nullifier. -/
theorem c10_duplicate_nullifiers_last_wins (resp : GetTransactionInputsResponse)
    (st : PAccountState) (aid : Nat) (ah : Option Word)
    (ps : List (Word × Option Nat)) (ms : List Word)
    (hst : resp.account_state = some st)
    (hsp : account_state_from_proto st = Except.ok (aid, ah))
    (hdec : decode_records resp.nullifiers = Except.ok ps)
    (hmd : collect_digests resp.missing_unauthenticated_notes = Except.ok ms) :
    transaction_inputs_try_from resp
      = Except.ok ⟨aid, ah, ps.foldl (fun m p => map_insert m p.1 p.2) [], ms,
          resp.block_height⟩ ∧
    keysNodup (ps.foldl (fun m p => map_insert m p.1 p.2) []) = true ∧
    ∀ k : Word,
      map_lookup (ps.foldl (fun m p => map_insert m p.1 p.2) []) k
        = findLastEntry ps k := by
  refine ⟨?_, keysNodup_foldl_insert ps [] rfl, ?_⟩
  · exact transaction_inputs_try_from_eq resp st aid ah _ ms hst hsp
      (collect_nullifiers_eq_foldl resp.nullifiers ps [] hdec) hmd
  · intro k
    rw [foldl_insert_lookup ps [] k]
    cases hf : findLastEntry ps k with
    | some v => rfl
    | none => rfl

/-- Witness for C10: two wire records for the same nullifier, heights 3 then
7 — conversion succeeds, one map entry, value 7. -/
theorem c10_duplicate_nullifiers_last_wins_witness :
    transaction_inputs_try_from
        ⟨some ⟨some 7, none⟩,
          [⟨some ⟨1, 2, 3, 4⟩, 3⟩, ⟨some ⟨1, 2, 3, 4⟩, 7⟩], [], 0⟩
      = Except.ok ⟨7, none, [(⟨1, 2, 3, 4⟩, some 7)], [], 0⟩ ∧
    map_lookup [(⟨1, 2, 3, 4⟩, some 7)] ⟨1, 2, 3, 4⟩ = some (some 7) := by
  have h := c10_duplicate_nullifiers_last_wins
    ⟨some ⟨some 7, none⟩, [⟨some ⟨1, 2, 3, 4⟩, 3⟩, ⟨some ⟨1, 2, 3, 4⟩, 7⟩], [], 0⟩
    ⟨some 7, none⟩ 7 none
    [(⟨1, 2, 3, 4⟩, some 3), (⟨1, 2, 3, 4⟩, some 7)] [] rfl rfl rfl rfl
  exact ⟨h.1, h.2.2 ⟨1, 2, 3, 4⟩⟩

end MidenNode
